import Mathlib

/-!
Verification of the DUC viewer's schema-driven conversion core.

The definitions below are a shallow embedding of the TypeScript sources:
`src/schemaParser.ts` (the schema field classifier), the `encodeBinaryFields`
and `convertDucToJson` members of `DucDocument` in `ducViewerEditor.ts`,
`customSchemaManager.ts` (the schema source resolver) and the download guard of
`flatcManager.ts`.  Strings are Lean `String`s, JavaScript `Set<string>` is a
duplicate-free `List String` with explicit membership, the decoded JSON tree is
a mutual inductive, and the in-place mutation of `encodeBinaryFields` is a pure
rewriting function.
-/

/-! ## JavaScript string primitives used by the sources -/

/-- Character class of the JavaScript regex `\s` (ASCII part, which is all the
sources can meet: schema lines are split on newlines first). -/
def isSpaceJS (c : Char) : Bool :=
  c = ' ' || c = '\t' || c = '\n' || c = '\r' || c = '\x0b' || c = '\x0c'

/-- Character class of the JavaScript regex `\w`: ASCII letters, digits and
underscore. -/
def isWordCharJS (c : Char) : Bool :=
  ('a' ≤ c && c ≤ 'z') || ('A' ≤ c && c ≤ 'Z') || ('0' ≤ c && c ≤ '9') || c = '_'

/-- Character class of the JavaScript regex `\d`. -/
def isDigitJS (c : Char) : Bool :=
  '0' ≤ c && c ≤ '9'

/-- Consume the regex `\s*`. -/
def dropSpaces (l : List Char) : List Char :=
  l.dropWhile isSpaceJS

/-- Boolean prefix test on character lists (JavaScript `String.startsWith`). -/
def startsWithList : List Char → List Char → Bool
  | _, [] => true
  | [], _ :: _ => false
  | c :: cs, d :: ds => c = d && startsWithList cs ds

/-- JavaScript `String.prototype.trim`: drop whitespace from both ends. -/
def trimJS (s : String) : String :=
  String.mk (((s.data.dropWhile isSpaceJS).reverse.dropWhile isSpaceJS).reverse)

/-- Count the occurrences of a character in a line, as the brace counting in
`SchemaParser.checkTableForByteArrays` does with `line.match(/\{/g)`. -/
def countChar (l : List Char) (c : Char) : Nat :=
  l.countP (fun d => d = c)

/-- Helper for `splitLines`, accumulating the current line in reverse. -/
def splitLinesAux : List Char → List Char → List String
  | acc, [] => [String.mk acc.reverse]
  | acc, c :: rest =>
      if c = '\n' then String.mk acc.reverse :: splitLinesAux [] rest
      else splitLinesAux (c :: acc) rest

/-- JavaScript `schemaContent.split('\n')`: split on newlines, keeping empty
pieces (the empty string splits to one empty line). -/
def splitLines (s : String) : List String :=
  splitLinesAux [] s.data

/-! ## The index-stripping replace of `shouldEncodeAsBase64`

`fieldPath.replace(/\[\d+\]/g, '')` scans left to right and removes every
non-overlapping occurrence of a bracketed run of digits.  `stripAux` is the
matching one-pass automaton: the `Option` state is `none` while scanning
normally and `some ds` after an opening bracket, holding the digits read so
far in reverse. -/
def stripAux : Option (List Char) → List Char → List Char
  | none, [] => []
  | none, c :: rest =>
      if c = '[' then stripAux (some []) rest
      else c :: stripAux none rest
  | some ds, [] => '[' :: ds.reverse
  | some ds, c :: rest =>
      if isDigitJS c then stripAux (some (c :: ds)) rest
      else if c = ']' then
        if ds.isEmpty then '[' :: ']' :: stripAux none rest
        else stripAux none rest
      else if c = '[' then ('[' :: ds.reverse) ++ stripAux (some []) rest
      else ('[' :: ds.reverse) ++ (c :: stripAux none rest)

/-- The normalization step of `SchemaParser.shouldEncodeAsBase64`:
`fieldPath.replace(/\[\d+\]/g, '')`. -/
def stripIndicesStr (s : String) : String :=
  String.mk (stripAux none s.data)

/-! ## Set<string> as a duplicate-free list -/

/-- Membership in the modelled `Set<string>` (`Set.has`). -/
def listHas : List String → String → Bool
  | [], _ => false
  | x :: xs, p => if x = p then true else listHas xs p

/-- Insertion into the modelled `Set<string>` (`Set.add`). -/
def insertPath (s : List String) (p : String) : List String :=
  if listHas s p then s else s ++ [p]

/-! ## SchemaParser (src/schemaParser.ts) -/

/-- Consume `\s*(\w+)`: the captured word characters. -/
def fieldNameOf (l : List Char) : List Char :=
  (dropSpaces l).takeWhile isWordCharJS

/-- What remains after `\s*(\w+)`. -/
def afterFieldName (l : List Char) : List Char :=
  (dropSpaces l).dropWhile isWordCharJS

/-- Match the core `\s*(\w+)\s*:\s*\[(?:u?)byte\]` of both byte-array regexes
in `SchemaParser`; on success return the captured field name and the
characters remaining after the closing bracket. -/
def matchByteCore (l : List Char) : Option (String × List Char) :=
  if (fieldNameOf l).isEmpty then none
  else
    match dropSpaces (afterFieldName l) with
    | ':' :: r1 =>
        match dropSpaces r1 with
        | '[' :: r2 =>
            if startsWithList r2 ('u' :: 'b' :: 'y' :: 't' :: 'e' :: []) then
              match r2.drop 5 with
              | ']' :: r4 => some (String.mk (fieldNameOf l), r4)
              | _ => none
            else if startsWithList r2 ('b' :: 'y' :: 't' :: 'e' :: []) then
              match r2.drop 4 with
              | ']' :: r4 => some (String.mk (fieldNameOf l), r4)
              | _ => none
            else none
        | _ => none
    | _ => none

/-- The regex `/^\s*(\w+)\s*:\s*\[(?:u?)byte\]\s*(?:;|$)/` of
`SchemaParser.parseLine`. -/
def matchByteArrayDecl (l : List Char) : Option String :=
  match matchByteCore l with
  | some (name, rest) =>
      match dropSpaces rest with
      | [] => some name
      | ';' :: _ => some name
      | _ => none
  | none => none

/-- The regex `/^\s*(\w+)\s*:\s*\[(?:u?)byte\]/` of
`SchemaParser.checkTableForByteArrays` (no tail requirement). -/
def matchByteArrayNested (l : List Char) : Option String :=
  match matchByteCore l with
  | some (name, _) => some name
  | none => none

/-- The regex `/^\s*(\w+)\s*:\s*(\w+)(?:\s*;|\s*$)/` of
`SchemaParser.parseLine`, capturing field name and type name. -/
def matchTableField (l : List Char) : Option (String × String) :=
  if (fieldNameOf l).isEmpty then none
  else
    match dropSpaces (afterFieldName l) with
    | ':' :: r1 =>
        if (fieldNameOf r1).isEmpty then none
        else
          match dropSpaces (afterFieldName r1) with
          | [] => some (String.mk (fieldNameOf l), String.mk (fieldNameOf r1))
          | ';' :: _ => some (String.mk (fieldNameOf l), String.mk (fieldNameOf r1))
          | _ => none
    | _ => none

/-- `SchemaParser.isPrimitiveType`. -/
def isPrimitiveType (typeName : String) : Bool :=
  typeName = "bool" || typeName = "byte" || typeName = "ubyte" ||
  typeName = "short" || typeName = "ushort" || typeName = "int" ||
  typeName = "uint" || typeName = "float" || typeName = "long" ||
  typeName = "ulong" || typeName = "double" || typeName = "string"

/-- The scanning loop of `SchemaParser.checkTableForByteArrays`: walk the
schema lines, enter the table at its exact `table Name {` header, track brace
depth, and add `parentField.childField` for each nested byte-array line. -/
def checkTableLoop (tableName parentField : String) :
    List String → Bool → Int → List String → List String
  | [], _, _, acc => acc
  | line :: rest, inTable, depth, acc =>
      if trimJS line = "table " ++ tableName ++ " \x7b" then
        checkTableLoop tableName parentField rest true 1 acc
      else if inTable then
        let depth2 : Int :=
          depth + (countChar line.data '\x7b' : Int) - (countChar line.data '\x7d' : Int)
        if depth2 ≤ 0 then acc
        else
          let acc2 :=
            match matchByteArrayNested line.data with
            | some child => insertPath acc (parentField ++ "." ++ child)
            | none => acc
          checkTableLoop tableName parentField rest true depth2 acc2
      else
        checkTableLoop tableName parentField rest false depth acc

/-- `SchemaParser.checkTableForByteArrays`: scans the whole schema content. -/
def checkTableForByteArrays (schemaContent : String) (tableName parentField : String)
    (acc : List String) : List String :=
  checkTableLoop tableName parentField (splitLines schemaContent) false 0 acc

/-- `SchemaParser.parseLine`, acting on a single already-trimmed line. -/
def parseLine (schemaContent : String) (line : String) (acc : List String) :
    List String :=
  if startsWithList line.data ('/' :: '/' :: []) || startsWithList line.data ('#' :: [])
      || line.data.isEmpty then
    acc
  else
    let acc1 :=
      match matchByteArrayDecl line.data with
      | some name => insertPath acc name
      | none => acc
    match matchTableField line.data with
    | some (fieldName, tableName) =>
        if isPrimitiveType tableName then acc1
        else checkTableForByteArrays schemaContent tableName fieldName acc1
    | none => acc1

/-- `SchemaParser.addKnownBinaryFields`: the unconditional safety-net paths. -/
def addKnownBinaryFields (s : List String) : List String :=
  insertPath (insertPath (insertPath (insertPath (insertPath s
    "data") "files.entries.value.data") "thumbnail")
    "version_graph.checkpoints.data") "external_files.value.data"

/-- `SchemaParser.parseSchema`: split into lines, parse each trimmed line,
then union in the known binary fields. -/
def parseSchema (schemaContent : String) : List String :=
  addKnownBinaryFields
    ((splitLines schemaContent).foldl
      (fun acc line => parseLine schemaContent (trimJS line) acc) [])

/-- `SchemaParser.shouldEncodeAsBase64`: exact match, or match after stripping
bracketed numeric indices. -/
def shouldEncodeAsBase64 (s : List String) (fieldPath : String) : Bool :=
  listHas s fieldPath || listHas s (stripIndicesStr fieldPath)

example : matchByteArrayDecl ("blob : [byte];".data) = some "blob" := by decide
example : matchByteArrayDecl ("data: [ubyte]".data) = some "data" := by decide
example : matchByteArrayDecl ("data: [ubyte] junk".data) = none := by decide
example : matchTableField ("x : Foo;".data) = some ("x", "Foo") := by decide
example : stripIndicesStr "a[2].b[0].c" = "a.b.c" := by decide
example : stripIndicesStr "data[1[2]]" = "data[1]" := by decide
example : shouldEncodeAsBase64 (parseSchema "") "thumbnail" = true := by decide

/-! ## The decoded JSON tree

The decoded output of flatc is an arbitrary tree of objects, arrays and
scalars.  Arrays and objects carry their children through the mutual types
`JsonList` and `JsonObj` so that all recursions below are structural. -/

mutual

inductive Json where
  | null : Json
  | bool : Bool → Json
  | num : Int → Json
  | str : String → Json
  | arr : JsonList → Json
  | obj : JsonObj → Json

inductive JsonList where
  | nil : JsonList
  | cons : Json → JsonList → JsonList

inductive JsonObj where
  | onil : JsonObj
  | ocons : String → Json → JsonObj → JsonObj

end

/-- JavaScript truthiness of a decoded value, used by the
`if (parsedJson)` guard before `encodeBinaryFields`. -/
def jsTruthy : Json → Bool
  | .null => false
  | .bool b => b
  | .num n => n ≠ 0
  | .str s => s ≠ ""
  | .arr _ => true
  | .obj _ => true

/-- The check `obj.length > 0 && typeof obj[0] === "number"` of
`encodeBinaryFields`: nonempty and first element a number. -/
def isNumHead : JsonList → Bool
  | .cons (.num _) _ => true
  | _ => false

/-- Coerce one array element to a byte as `Buffer.from` does: numbers are
taken modulo 256, booleans and null coerce to 1 and 0; other element kinds
are modelled as 0. -/
def jsonToByte : Json → Nat
  | .num n => (n % 256).toNat
  | .bool b => if b then 1 else 0
  | _ => 0

/-- Collect the byte values of an array. -/
def listToBytes : JsonList → List Nat
  | .nil => []
  | .cons x xs => jsonToByte x :: listToBytes xs

/-- The standard base64 alphabet. -/
def base64Alphabet : List Char :=
  ("ABCDEFGHIJKLMNOPQRSTUVWXYZabcdefghijklmnopqrstuvwxyz0123456789+/").data

/-- Character of a 6-bit group. -/
def b64Char (n : Nat) : Char :=
  base64Alphabet.getD n 'A'

/-- Standard base64 of a byte sequence, as `Buffer.toString("base64")`. -/
def base64Encode : List Nat → List Char
  | [] => []
  | [a] => [b64Char (a / 4), b64Char (a % 4 * 16), '=', '=']
  | [a, b] => [b64Char (a / 4), b64Char (a % 4 * 16 + b / 16), b64Char (b % 16 * 4), '=']
  | a :: b :: c :: rest =>
      b64Char (a / 4) :: b64Char (a % 4 * 16 + b / 16) ::
      b64Char (b % 16 * 4 + c / 64) :: b64Char (c % 64) :: base64Encode rest

/-- `Buffer.from(value).toString("base64")` on a decoded array. -/
def b64String (xs : JsonList) : String :=
  String.mk (base64Encode (listToBytes xs))

/-- The array-index path qualifier of `encodeBinaryFields`: `path[i]`. -/
def pathIndex (path : String) (i : Nat) : String :=
  path ++ "[" ++ toString i ++ "]"

/-- The object-key path qualifier of `encodeBinaryFields`:
`path ? path.key : key`. -/
def joinPath (path k : String) : String :=
  if path = "" then k else path ++ "." ++ k

/-! ## encodeBinaryFields (DucDocument, ducViewerEditor.ts)

The source mutates the tree in place; the model returns the rewritten tree.
An array whose qualified path the classifier matches and whose first element
is a number is spliced down to the single base64 string
(`obj.splice(0, obj.length, base64Data)`); a matching object property whose
value is such an array is overwritten with the base64 string
(`obj[key] = base64Data`).  Everywhere else the walk recurses, except under a
matched path of the wrong shape, which is left untouched without
recursion. -/

mutual

def rewriteJson (S : List String) (path : String) : Json → Json
  | .arr xs =>
      if shouldEncodeAsBase64 S path then
        if isNumHead xs then .arr (.cons (.str (b64String xs)) .nil) else .arr xs
      else .arr (rewriteList S path 0 xs)
  | .obj fs => .obj (rewriteObj S path fs)
  | j => j

def rewriteList (S : List String) (path : String) (i : Nat) : JsonList → JsonList
  | .nil => .nil
  | .cons x xs =>
      .cons (rewriteJson S (pathIndex path i) x) (rewriteList S path (i + 1) xs)

def rewriteObj (S : List String) (path : String) : JsonObj → JsonObj
  | .onil => .onil
  | .ocons k v fs =>
      let cp := joinPath path k
      let v2 :=
        if shouldEncodeAsBase64 S cp then
          match v with
          | .arr xs => if isNumHead xs then .str (b64String xs) else v
          | _ => v
        else rewriteJson S cp v
      .ocons k v2 (rewriteObj S path fs)

end

example :
    rewriteJson ["data"] "" (.obj (.ocons "data" (.arr (.cons (.num 104) (.cons (.num 105) .nil))) .onil))
      = .obj (.ocons "data" (.str "aGk=") .onil) := by rfl

/-! ## Positions in a decoded tree, for the frame property -/

/-- One step into a decoded tree: an array index or an object key. -/
inductive Seg where
  | idx : Nat → Seg
  | key : String → Seg

/-- Element lookup in a modelled array. -/
def listGet : JsonList → Nat → Option Json
  | .nil, _ => none
  | .cons x _, 0 => some x
  | .cons _ xs, n + 1 => listGet xs n

/-- Property lookup in a modelled object (first matching key). -/
def objGet : JsonObj → String → Option Json
  | .onil, _ => none
  | .ocons k v fs, q => if k = q then some v else objGet fs q

/-- Subtree of a decoded tree at a position. -/
def getAt : Json → List Seg → Option Json
  | j, [] => some j
  | .arr xs, .idx i :: σ =>
      match listGet xs i with
      | some x => getAt x σ
      | none => none
  | .obj fs, .key k :: σ =>
      match objGet fs k with
      | some v => getAt v σ
      | none => none
  | _, _ => none

/-- A node that `encodeBinaryFields` would overwrite: an array whose
qualified path the classifier matches and whose first element is a number. -/
def isMatchedByteArr (S : List String) (path : String) : Json → Bool
  | .arr xs => shouldEncodeAsBase64 S path && isNumHead xs
  | _ => false

mutual

/-- Whether a tree contains, anywhere (full traversal, with the qualified
path of each node), a node that `encodeBinaryFields` would overwrite. -/
def cmJson (S : List String) (path : String) : Json → Bool
  | .arr xs => (shouldEncodeAsBase64 S path && isNumHead xs) || cmList S path 0 xs
  | .obj fs => cmObj S path fs
  | _ => false

def cmList (S : List String) (path : String) (i : Nat) : JsonList → Bool
  | .nil => false
  | .cons x xs => cmJson S (pathIndex path i) x || cmList S path (i + 1) xs

def cmObj (S : List String) (path : String) : JsonObj → Bool
  | .onil => false
  | .ocons k v fs => cmJson S (joinPath path k) v || cmObj S path fs

end

/-- A position is clean when no node along it is one the rewrite would
overwrite and the subtree at its end contains no such node at all. -/
def cleanChain (S : List String) (path : String) : Json → List Seg → Bool
  | j, [] => !cmJson S path j
  | j, .idx i :: σ =>
      !isMatchedByteArr S path j &&
      (match j with
       | .arr xs =>
           match listGet xs i with
           | some x => cleanChain S (pathIndex path i) x σ
           | none => true
       | _ => true)
  | j, .key k :: σ =>
      !isMatchedByteArr S path j &&
      (match j with
       | .obj fs =>
           match objGet fs k with
           | some v => cleanChain S (joinPath path k) v σ
           | none => true
       | _ => true)

/-- The value an object entry `(k, v)` holds after one pass of
`encodeBinaryFields` over its enclosing object: this is the `v2` computation
of `rewriteObj`, named so lookups through rewritten objects can be stated. -/
def entryVal (S : List String) (path k : String) (v : Json) : Json :=
  if shouldEncodeAsBase64 S (joinPath path k) then
    match v with
    | .arr xs => if isNumHead xs then .str (b64String xs) else v
    | _ => v
  else rewriteJson S (joinPath path k) v

/-! ## CustomSchemaManager (src/customSchemaManager.ts)

The file system is an explicit collaborator; the persisted
`ducPreview.customSchemaPath` setting is an `Option String` threaded through
the operations that may clear it. -/

/-- The file-system facts `isValidSchemaFile` and `getCustomSchemaContent`
consult: existence, readability (the `fs.accessSync` probe), and the outcome
of `fs.promises.readFile` (`none` models a read failure). -/
structure FileSys where
  fexists : String → Bool
  readable : String → Bool
  readFile : String → Option String

/-- `CustomSchemaManager.isValidSchemaFile`: exists, ends in `.fbs`
(case-insensitively), and is readable. -/
def isValidSchemaFile (fs : FileSys) (filePath : String) : Bool :=
  fs.fexists filePath &&
  startsWithList (filePath.data.map Char.toLower).reverse (".fbs".data.reverse) &&
  fs.readable filePath

/-- `CustomSchemaManager.getCustomSchemaPath`: the persisted setting, if
truthy and valid; otherwise null. -/
def getCustomSchemaPath (cfg : Option String) (fs : FileSys) : Option String :=
  match cfg with
  | some p => if p ≠ "" && isValidSchemaFile fs p then some p else none
  | none => none

/-- `CustomSchemaManager.getCustomSchemaContent`: read the valid custom
schema; a read failure clears the persisted setting (second component) and
yields no content. -/
def getCustomSchemaContent (cfg : Option String) (fs : FileSys) :
    Option String × Option String :=
  match getCustomSchemaPath cfg fs with
  | none => (none, cfg)
  | some p =>
      match fs.readFile p with
      | some content => (some content, cfg)
      | none => (none, none)

/-- The schema text `convertDucToJson` uses:
`customSchemaContent || DUC_SCHEMA` (JavaScript truthiness, so empty content
also falls back to the embedded default, which is a parameter here because
the compiled-in `DUC_SCHEMA` text is generated at build time). -/
def effectiveSchemaText (cfg : Option String) (fs : FileSys) (ducSchema : String) :
    String :=
  match (getCustomSchemaContent cfg fs).1 with
  | some c => if c = "" then ducSchema else c
  | none => ducSchema

/-! ## FlatcManager download guard (src/flatcManager.ts) -/

/-- The process-wide state of `FlatcManager`: the memoized tool path and the
`isDownloading` flag. -/
structure FlatcState where
  flatcPath : Option String
  isDownloading : Bool

/-- Entry of `FlatcManager.downloadFlatc`: while a download is in flight the
call is rejected immediately with the distinct error; otherwise the flag is
raised and the download proceeds. -/
def downloadStart (st : FlatcState) : Except String FlatcState :=
  if st.isDownloading then .error "Already downloading flatc, please wait."
  else .ok { st with isDownloading := true }

/-- Settling of an in-flight download: the `finally` clears the flag; success
additionally memoizes the extracted path. -/
def downloadSettle (st : FlatcState) (outcome : Except String String) :
    Except String String × FlatcState :=
  match outcome with
  | .ok p => (.ok p, { flatcPath := some p, isDownloading := false })
  | .error e => (.error e, { st with isDownloading := false })

/-! ## convertDucToJson (DucDocument, ducViewerEditor.ts) -/

/-- The fields of the error `execFile` rejects with, as destructured by the
catch block of `convertDucToJson`. -/
structure ExecError where
  message : String
  stderr : Option String
  stdout : Option String
  code : Option Int
  signal : Option String

/-- The detailed message the catch block of `convertDucToJson` builds: the
base message, then the trimmed stderr and stdout sections (with their
`(empty)` and `(not available on error object)` placeholders), then the exit
code and signal when present. -/
def buildDetailedMessage (e : ExecError) : String :=
  let m1 := e.message
  let m2 := m1 ++
    (match e.stderr with
     | some s =>
         let t := trimJS s
         "\n\nStderr from flatc:\n" ++ (if t = "" then "(empty)" else t)
     | none => "\n\nStderr from flatc: (not available on error object)")
  let m3 := m2 ++
    (match e.stdout with
     | some s =>
         let t := trimJS s
         "\n\nStdout from flatc:\n" ++ (if t = "" then "(empty)" else t)
     | none => "\n\nStdout from flatc: (not available on error object)")
  let m4 := m3 ++
    (match e.code with
     | some c => "\n\nExit code: " ++ toString c
     | none => "")
  m4 ++
    (match e.signal with
     | some s => "\n\nSignal: " ++ s
     | none => "")

/-- The conversion pipeline of `convertDucToJson`, over explicit
collaborators: the persisted setting and file system choose the schema text;
`flatcError` is the outcome of the `execFile` invocation (`some` models a
rejection, caught by the catch block); on success `decoded` is the parsed
JSON output, post-processed by `encodeBinaryFields` under the classifier of
the same schema text.  The final `JSON.stringify` pretty-printing is display
formatting and the post-processed tree itself is returned. -/
def convertDucToJson (cfg : Option String) (fs : FileSys) (ducSchema : String)
    (flatcError : Option ExecError) (decoded : Json) : Except String Json :=
  match flatcError with
  | some e => .error (buildDetailedMessage e)
  | none =>
      let schemaContent := effectiveSchemaText cfg fs ducSchema
      let S := parseSchema schemaContent
      .ok (if jsTruthy decoded then rewriteJson S "" decoded else decoded)

/-- The message `m` contains `needle` as a literal substring. -/
def strContains (m needle : String) : Prop :=
  ∃ a b : String, m = a ++ needle ++ b

/-! ## Basic lemmas about the modelled string set -/

theorem listHas_append_self (s : List String) (p : String) :
    listHas (s ++ [p]) p = true := by
  induction s with
  | nil => simp [listHas]
  | cons x xs ih => by_cases h : x = p <;> simp [listHas, h, ih]

theorem listHas_insertPath_self (s : List String) (p : String) :
    listHas (insertPath s p) p = true := by
  unfold insertPath
  by_cases h : listHas s p = true
  · simp [h]
  · simp only [Bool.not_eq_true] at h
    simp [h, listHas_append_self]

theorem listHas_append_of (s : List String) (p x : String)
    (h : listHas s x = true) : listHas (s ++ [p]) x = true := by
  induction s with
  | nil => simp [listHas] at h
  | cons y ys ih =>
      by_cases hy : y = x
      · simp [listHas, hy]
      · simp [listHas, hy] at h ⊢
        exact ih h

theorem listHas_insertPath_of (s : List String) (p x : String)
    (h : listHas s x = true) : listHas (insertPath s p) x = true := by
  unfold insertPath
  by_cases hp : listHas s p = true
  · simp [hp, h]
  · simp only [Bool.not_eq_true] at hp
    simp [hp, listHas_append_of s p x h]

theorem listHas_addKnown_of (s : List String) (x : String)
    (h : listHas s x = true) : listHas (addKnownBinaryFields s) x = true := by
  unfold addKnownBinaryFields
  exact listHas_insertPath_of _ _ _ (listHas_insertPath_of _ _ _
    (listHas_insertPath_of _ _ _ (listHas_insertPath_of _ _ _
      (listHas_insertPath_of _ _ _ h))))

theorem checkTableLoop_mono (tableName parentField : String)
    (lines : List String) (inTable : Bool) (depth : Int) (acc : List String)
    (x : String) (h : listHas acc x = true) :
    listHas (checkTableLoop tableName parentField lines inTable depth acc) x = true := by
  induction lines generalizing inTable depth acc with
  | nil => simpa [checkTableLoop] using h
  | cons line rest ih =>
      unfold checkTableLoop
      by_cases hhd : trimJS line = "table " ++ tableName ++ " \x7b"
      · simp only [hhd, if_pos rfl]
        exact ih true 1 acc h
      · simp only [if_neg hhd]
        cases hin : inTable with
        | false => simpa using ih false depth acc h
        | true =>
            simp only [if_pos rfl]
            set depth2 : Int :=
              depth + (countChar line.data '\x7b' : Int) - (countChar line.data '\x7d' : Int) with hd2
            by_cases hdep : depth2 ≤ 0
            · simpa [hdep] using h
            · simp only [if_neg hdep]
              cases hm : matchByteArrayNested line.data with
              | none => exact ih true depth2 acc h
              | some child =>
                  exact ih true depth2 _ (listHas_insertPath_of _ _ _ h)

theorem parseLine_mono (schemaContent line : String) (acc : List String)
    (x : String) (h : listHas acc x = true) :
    listHas (parseLine schemaContent line acc) x = true := by
  unfold parseLine
  by_cases hskip : (startsWithList line.data ('/' :: '/' :: []) ||
      startsWithList line.data ('#' :: []) || line.data.isEmpty) = true
  · simpa [hskip] using h
  · simp only [Bool.not_eq_true] at hskip
    simp only [hskip, Bool.false_eq_true, if_false]
    have hacc1 : ∀ acc1 : List String, listHas acc1 x = true →
        listHas (match matchTableField line.data with
          | some (fieldName, tableName) =>
              if isPrimitiveType tableName then acc1
              else checkTableForByteArrays schemaContent tableName fieldName acc1
          | none => acc1) x = true := by
      intro acc1 h1
      cases hm : matchTableField line.data with
      | none => simpa using h1
      | some pr =>
          obtain ⟨fieldName, tableName⟩ := pr
          by_cases hp : isPrimitiveType tableName = true
          · simpa [hp] using h1
          · simp only [Bool.not_eq_true] at hp
            simpa [hp, checkTableForByteArrays] using
              checkTableLoop_mono tableName fieldName _ false 0 acc1 x h1
    cases hb : matchByteArrayDecl line.data with
    | none => exact hacc1 acc h
    | some name => exact hacc1 _ (listHas_insertPath_of _ _ _ h)

/-! ## C2 -/

/-- C2: for every schema text (including the empty and unparseable ones), the
five safety-net paths are in the classifier's path set after parsing, and
querying each of them returns true. -/
theorem safety_net_paths_always_classified (schema : String) :
    (["data", "thumbnail", "files.entries.value.data",
      "version_graph.checkpoints.data", "external_files.value.data"].all
      (fun p => listHas (parseSchema schema) p &&
        shouldEncodeAsBase64 (parseSchema schema) p)) = true := by
  have base : ∀ (s : List String) (p : String),
      listHas (addKnownBinaryFields s) p = true →
      shouldEncodeAsBase64 (addKnownBinaryFields s) p = true := by
    intro s p h
    simp [shouldEncodeAsBase64, h]
  have known : ∀ p, p ∈ ["data", "thumbnail", "files.entries.value.data",
      "version_graph.checkpoints.data", "external_files.value.data"] →
      ∀ s : List String, listHas (addKnownBinaryFields s) p = true := by
    intro p hp s
    unfold addKnownBinaryFields
    simp only [List.mem_cons, List.not_mem_nil, or_false] at hp
    rcases hp with h | h | h | h | h
    · subst h
      exact listHas_insertPath_of _ _ _ (listHas_insertPath_of _ _ _
        (listHas_insertPath_of _ _ _ (listHas_insertPath_of _ _ _
          (listHas_insertPath_self _ _))))
    · subst h
      exact listHas_insertPath_of _ _ _ (listHas_insertPath_of _ _ _
        (listHas_insertPath_self _ _))
    · subst h
      exact listHas_insertPath_of _ _ _ (listHas_insertPath_of _ _ _
        (listHas_insertPath_of _ _ _ (listHas_insertPath_self _ _)))
    · subst h
      exact listHas_insertPath_of _ _ _ (listHas_insertPath_self _ _)
    · subst h
      exact listHas_insertPath_self _ _
  simp only [List.all_eq_true]
  intro p hp
  have hmem : listHas (parseSchema schema) p = true := by
    unfold parseSchema
    exact known p (by simpa using hp) _
  simp [hmem, shouldEncodeAsBase64]

/-! ## Lemmas about trimming and the byte-array match -/

theorem dropWhile_cons_head_false (p : Char → Bool) (l : List Char) (c : Char)
    (r : List Char) (h : l.dropWhile p = c :: r) : p c = false := by
  induction l with
  | nil => simp [List.dropWhile] at h
  | cons a as ih =>
      rw [List.dropWhile_cons] at h
      by_cases ha : p a = true
      · rw [if_pos ha] at h
        exact ih h
      · simp only [Bool.not_eq_true] at ha
        rw [ha] at h
        simp only [Bool.false_eq_true, if_false] at h
        cases h
        exact ha

theorem dropWhile_append_last (p : Char → Bool) (u : List Char) (c : Char)
    (hc : p c = false) : ∃ w, (u ++ [c]).dropWhile p = w ++ [c] := by
  induction u with
  | nil =>
      refine ⟨[], ?_⟩
      simp [List.dropWhile_cons, hc]
  | cons a as ih =>
      by_cases ha : p a = true
      · simpa [List.dropWhile_cons, ha] using ih
      · simp only [Bool.not_eq_true] at ha
        exact ⟨a :: as, by simp [List.dropWhile_cons, ha]⟩

theorem trimJS_no_leading_space (s : String) :
    dropSpaces (trimJS s).data = (trimJS s).data := by
  show (((s.data.dropWhile isSpaceJS).reverse.dropWhile isSpaceJS).reverse).dropWhile isSpaceJS
      = ((s.data.dropWhile isSpaceJS).reverse.dropWhile isSpaceJS).reverse
  cases h1 : s.data.dropWhile isSpaceJS with
  | nil => simp
  | cons c r =>
      have hc : isSpaceJS c = false := dropWhile_cons_head_false _ _ _ _ h1
      have hrev : (c :: r).reverse = r.reverse ++ [c] := by simp
      rw [hrev]
      obtain ⟨w, hw⟩ := dropWhile_append_last isSpaceJS r.reverse c hc
      rw [hw]
      simp [List.dropWhile_cons, hc]

theorem matchByteCore_head (l : List Char) (name : String) (r : List Char)
    (h : matchByteCore l = some (name, r)) :
    ∃ c t, dropSpaces l = c :: t ∧ isWordCharJS c = true := by
  unfold matchByteCore fieldNameOf at h
  cases hl : dropSpaces l with
  | nil => rw [hl] at h; simp [List.takeWhile] at h
  | cons c t =>
      by_cases hc : isWordCharJS c = true
      · exact ⟨c, t, rfl, hc⟩
      · simp only [Bool.not_eq_true] at hc
        rw [hl] at h
        simp [List.takeWhile_cons, hc] at h

theorem parseLine_adds (sc : String) (t : String) (name : String) (acc : List String)
    (ht : dropSpaces t.data = t.data)
    (hm : matchByteArrayDecl t.data = some name) :
    listHas (parseLine sc t acc) name = true := by
  obtain ⟨core, hcore⟩ : ∃ pr, matchByteCore t.data = some pr := by
    unfold matchByteArrayDecl at hm
    cases hmc : matchByteCore t.data with
    | none => rw [hmc] at hm; cases hm
    | some pr => exact ⟨pr, rfl⟩
  obtain ⟨c, rest, hdrop, hword⟩ := matchByteCore_head t.data core.1 core.2
    (by simpa using hcore)
  rw [ht] at hdrop
  have hslash : c ≠ '/' := by
    intro hceq
    rw [hceq] at hword
    simp [isWordCharJS] at hword
  have hhash : c ≠ '#' := by
    intro hceq
    rw [hceq] at hword
    simp [isWordCharJS] at hword
  have hguard : (startsWithList t.data ('/' :: '/' :: []) ||
      startsWithList t.data ('#' :: []) || t.data.isEmpty) = false := by
    rw [hdrop]
    simp [startsWithList, hslash, hhash]
  unfold parseLine
  rw [hguard]
  simp only [Bool.false_eq_true, if_false]
  have hacc1 : listHas (match matchByteArrayDecl t.data with
      | some n => insertPath acc n
      | none => acc) name = true := by
    rw [hm]
    exact listHas_insertPath_self _ _
  cases hmt : matchTableField t.data with
  | none => simpa [hmt] using hacc1
  | some pr =>
      obtain ⟨fieldName, tableName⟩ := pr
      by_cases hp : isPrimitiveType tableName = true
      · simpa [hmt, hp] using hacc1
      · simp only [Bool.not_eq_true] at hp
        simp only [hmt, hp, Bool.false_eq_true, if_false]
        simpa [checkTableForByteArrays] using
          checkTableLoop_mono tableName fieldName _ false 0 _ name hacc1

theorem foldl_parseLine_mono (sc : String) (lines : List String)
    (acc : List String) (x : String) (h : listHas acc x = true) :
    listHas (lines.foldl (fun a l => parseLine sc (trimJS l) a) acc) x = true := by
  induction lines generalizing acc with
  | nil => simpa using h
  | cons l ls ih => exact ih _ (parseLine_mono sc (trimJS l) acc x h)

theorem foldl_parseLine_has (sc : String) (lines : List String) (line : String)
    (name : String) (acc : List String) (hmem : line ∈ lines)
    (hadd : ∀ a : List String, listHas (parseLine sc (trimJS line) a) name = true) :
    listHas (lines.foldl (fun a l => parseLine sc (trimJS l) a) acc) name = true := by
  induction hmem generalizing acc with
  | head ls => exact foldl_parseLine_mono sc ls _ name (hadd acc)
  | tail b hmem2 ih => exact ih _

/-! ## C1 -/

/-- C1: for every schema text containing a field declared as a byte array
(a line whose trimmed text matches the `name : [byte]` / `name : [ubyte]`
declaration pattern), parsing the schema and querying the classifier for the
bare field name returns true. -/
theorem byte_array_field_classified (schema line name : String)
    (hline : line ∈ splitLines schema)
    (hmatch : matchByteArrayDecl (trimJS line).data = some name) :
    shouldEncodeAsBase64 (parseSchema schema) name = true := by
  have hadd : ∀ a : List String, listHas (parseLine schema (trimJS line) a) name = true :=
    fun a => parseLine_adds schema (trimJS line) name a (trimJS_no_leading_space line) hmatch
  have hfold := foldl_parseLine_has schema (splitLines schema) line name [] hline hadd
  have hmem : listHas (parseSchema schema) name = true := by
    unfold parseSchema
    exact listHas_addKnown_of _ _ hfold
  simp [shouldEncodeAsBase64, hmem]

/-- Witness for C1 at the one-line schema `blob : [byte];`. -/
theorem byte_array_field_classified_witness :
    "blob : [byte];" ∈ splitLines "blob : [byte];" ∧
    matchByteArrayDecl (trimJS "blob : [byte];").data = some "blob" ∧
    shouldEncodeAsBase64 (parseSchema "blob : [byte];") "blob" = true :=
  ⟨by decide, by decide,
    byte_array_field_classified "blob : [byte];" "blob : [byte];" "blob"
      (by decide) (by decide)⟩

/-! ## C3: members of the classifier set have no brackets -/

theorem stripAux_none_id (l : List Char) (h : '[' ∉ l) : stripAux none l = l := by
  induction l with
  | nil => rfl
  | cons c rest ih =>
      have hc : c ≠ '[' := fun hEq => h (hEq ▸ List.mem_cons_self c rest)
      have hrest : '[' ∉ rest := fun hmem => h (List.mem_cons_of_mem c hmem)
      simp [stripAux, hc, ih hrest]

theorem matchByteCore_name_word (l : List Char) (name : String) (r : List Char)
    (h : matchByteCore l = some (name, r)) :
    ∀ c ∈ name.data, isWordCharJS c = true := by
  unfold matchByteCore at h
  repeat' split at h
  all_goals cases h
  all_goals
    intro c hc
    exact List.mem_takeWhile_imp hc

theorem matchTableField_fst_word (l : List Char) (f t : String)
    (h : matchTableField l = some (f, t)) :
    ∀ c ∈ f.data, isWordCharJS c = true := by
  unfold matchTableField at h
  repeat' split at h
  all_goals cases h
  all_goals
    intro c hc
    exact List.mem_takeWhile_imp hc

theorem listHas_append_elim (s : List String) (p x : String)
    (h : listHas (s ++ [p]) x = true) : listHas s x = true ∨ x = p := by
  induction s with
  | nil =>
      simp only [List.nil_append, listHas] at h
      by_cases hp : p = x
      · exact Or.inr hp.symm
      · rw [if_neg hp] at h
        cases h
  | cons y ys ih =>
      simp only [List.cons_append, listHas] at h ⊢
      by_cases hy : y = x
      · left
        rw [if_pos hy]
      · rw [if_neg hy] at h ⊢
        exact ih h

theorem listHas_insertPath_elim (s : List String) (p x : String)
    (h : listHas (insertPath s p) x = true) : listHas s x = true ∨ x = p := by
  unfold insertPath at h
  by_cases hp : listHas s p = true
  · rw [if_pos hp] at h
    exact Or.inl h
  · simp only [Bool.not_eq_true] at hp
    rw [hp] at h
    simp only [Bool.false_eq_true, if_false] at h
    exact listHas_append_elim s p x h

theorem matchByteArrayDecl_core (l : List Char) (name : String)
    (h : matchByteArrayDecl l = some name) :
    ∃ rest, matchByteCore l = some (name, rest) := by
  cases hc : matchByteCore l with
  | none => simp [matchByteArrayDecl, hc] at h
  | some pr =>
      obtain ⟨nm, rest0⟩ := pr
      simp only [matchByteArrayDecl, hc] at h
      have hnm : nm = name := by
        split at h
        · exact Option.some.inj h
        · exact Option.some.inj h
        · cases h
      exact ⟨rest0, by rw [hnm]⟩

theorem matchByteArrayNested_core (l : List Char) (name : String)
    (h : matchByteArrayNested l = some name) :
    ∃ rest, matchByteCore l = some (name, rest) := by
  cases hc : matchByteCore l with
  | none => simp [matchByteArrayNested, hc] at h
  | some pr =>
      obtain ⟨nm, rest0⟩ := pr
      simp only [matchByteArrayNested, hc] at h
      exact ⟨rest0, by rw [Option.some.inj h]⟩

theorem matchByteArrayDecl_name_word (l : List Char) (name : String)
    (h : matchByteArrayDecl l = some name) :
    ∀ c ∈ name.data, isWordCharJS c = true := by
  obtain ⟨rest, hcore⟩ := matchByteArrayDecl_core l name h
  exact matchByteCore_name_word l name rest hcore

theorem matchByteArrayNested_name_word (l : List Char) (name : String)
    (h : matchByteArrayNested l = some name) :
    ∀ c ∈ name.data, isWordCharJS c = true := by
  obtain ⟨rest, hcore⟩ := matchByteArrayNested_core l name h
  exact matchByteCore_name_word l name rest hcore

theorem word_no_bracket (name : String)
    (hword : ∀ c ∈ name.data, isWordCharJS c = true) : '[' ∉ name.data := by
  intro hmem
  have := hword _ hmem
  simp [isWordCharJS] at this

theorem noBracket_insertPath (s : List String) (p : String)
    (hs : ∀ x, listHas s x = true → '[' ∉ x.data) (hp : '[' ∉ p.data) :
    ∀ x, listHas (insertPath s p) x = true → '[' ∉ x.data := by
  intro x hx
  rcases listHas_insertPath_elim s p x hx with hmem | hEq
  · exact hs x hmem
  · rw [hEq]
    exact hp

theorem noBracket_composite (parent child : String)
    (hp : '[' ∉ parent.data) (hc : '[' ∉ child.data) :
    '[' ∉ (parent ++ "." ++ child).data := by
  intro hmem
  simp only [String.data_append, List.mem_append] at hmem
  rcases hmem with (hm | hm) | hm
  · exact hp hm
  · simp [(show ("." : String).data = ['.'] from rfl)] at hm
  · exact hc hm

theorem noBracket_checkTableLoop (tableName parentField : String)
    (hpf : '[' ∉ parentField.data) (lines : List String) (inTable : Bool)
    (depth : Int) (acc : List String)
    (hs : ∀ x, listHas acc x = true → '[' ∉ x.data) :
    ∀ x, listHas (checkTableLoop tableName parentField lines inTable depth acc) x = true →
      '[' ∉ x.data := by
  induction lines generalizing inTable depth acc with
  | nil => simpa [checkTableLoop] using hs
  | cons line rest ih =>
      unfold checkTableLoop
      by_cases hhd : trimJS line = "table " ++ tableName ++ " \x7b"
      · simp only [hhd, if_pos rfl]
        exact ih true 1 acc hs
      · simp only [if_neg hhd]
        cases inTable with
        | false => simpa using ih false depth acc hs
        | true =>
            simp only [if_pos rfl]
            set depth2 : Int :=
              depth + (countChar line.data '\x7b' : Int) - (countChar line.data '\x7d' : Int) with hd2
            by_cases hdep : depth2 ≤ 0
            · simpa [hdep] using hs
            · simp only [if_neg hdep]
              cases hm : matchByteArrayNested line.data with
              | none => exact ih true depth2 acc hs
              | some child =>
                  refine ih true depth2 _ ?_
                  refine noBracket_insertPath acc _ hs ?_
                  exact noBracket_composite parentField child hpf
                    (word_no_bracket child (matchByteArrayNested_name_word line.data child hm))

theorem noBracket_parseLine (schemaContent line : String) (acc : List String)
    (hs : ∀ x, listHas acc x = true → '[' ∉ x.data) :
    ∀ x, listHas (parseLine schemaContent line acc) x = true → '[' ∉ x.data := by
  unfold parseLine
  by_cases hskip : (startsWithList line.data ('/' :: '/' :: []) ||
      startsWithList line.data ('#' :: []) || line.data.isEmpty) = true
  · simpa [hskip] using hs
  · simp only [Bool.not_eq_true] at hskip
    simp only [hskip, Bool.false_eq_true, if_false]
    have hacc1 : ∀ x, listHas (match matchByteArrayDecl line.data with
        | some n => insertPath acc n
        | none => acc) x = true → '[' ∉ x.data := by
      cases hb : matchByteArrayDecl line.data with
      | none => simpa using hs
      | some name =>
          exact noBracket_insertPath acc name hs
            (word_no_bracket name (matchByteArrayDecl_name_word line.data name hb))
    cases hmt : matchTableField line.data with
    | none => simpa using hacc1
    | some pr =>
        obtain ⟨fieldName, tableName⟩ := pr
        by_cases hp : isPrimitiveType tableName = true
        · simpa [hp] using hacc1
        · simp only [Bool.not_eq_true] at hp
          simp only [hp, Bool.false_eq_true, if_false]
          unfold checkTableForByteArrays
          exact noBracket_checkTableLoop tableName fieldName
            (word_no_bracket fieldName (matchTableField_fst_word line.data fieldName tableName hmt))
            _ false 0 _ hacc1

theorem noBracket_foldl (schema : String) (lines : List String) (acc : List String)
    (hs : ∀ x, listHas acc x = true → '[' ∉ x.data) :
    ∀ x, listHas (lines.foldl (fun a l => parseLine schema (trimJS l) a) acc) x = true →
      '[' ∉ x.data := by
  induction lines generalizing acc with
  | nil => simpa using hs
  | cons l ls ih => exact ih _ (noBracket_parseLine schema (trimJS l) acc hs)

theorem noBracket_parseSchema (schema : String) :
    ∀ x, listHas (parseSchema schema) x = true → '[' ∉ x.data := by
  unfold parseSchema addKnownBinaryFields
  have hbase : ∀ x, listHas ([] : List String) x = true → '[' ∉ x.data := by
    intro x hx
    simp [listHas] at hx
  refine noBracket_insertPath _ _ (noBracket_insertPath _ _ (noBracket_insertPath _ _
    (noBracket_insertPath _ _ (noBracket_insertPath _ _
      (noBracket_foldl schema (splitLines schema) [] hbase) ?_) ?_) ?_) ?_) ?_
  · decide
  · decide
  · decide
  · decide
  · decide

theorem stripIndicesStr_id (p : String) (h : '[' ∉ p.data) :
    stripIndicesStr p = p := by
  unfold stripIndicesStr
  rw [stripAux_none_id p.data h]

/-! ## C3 -/

/-- C3: path matching is index-agnostic.  For every classifier obtained by
parsing a schema text and every path whose bracketed segments are all numeric
index segments (nothing bracketed survives the stripping), the query on the
path and the query on the stripped path agree. -/
theorem path_matching_index_agnostic (schema p : String)
    (h : '[' ∉ (stripIndicesStr p).data) :
    shouldEncodeAsBase64 (parseSchema schema) p =
      shouldEncodeAsBase64 (parseSchema schema) (stripIndicesStr p) := by
  unfold shouldEncodeAsBase64
  rw [stripIndicesStr_id (stripIndicesStr p) h]
  cases hp : listHas (parseSchema schema) p with
  | false => simp [hp]
  | true =>
      have hnb : '[' ∉ p.data := noBracket_parseSchema schema p hp
      rw [stripIndicesStr_id p hnb]
      simp [hp]

/-- Witness for C3 at the classifier of the empty schema and the path
`a[0].b[5].c`, whose stripped form is `a.b.c`. -/
theorem path_matching_index_agnostic_witness :
    '[' ∉ (stripIndicesStr "a[0].b[5].c").data ∧
    shouldEncodeAsBase64 (parseSchema "") "a[0].b[5].c" =
      shouldEncodeAsBase64 (parseSchema "") (stripIndicesStr "a[0].b[5].c") :=
  ⟨by decide, path_matching_index_agnostic "" "a[0].b[5].c" (by decide)⟩

/-! ## C4: idempotence of the binary-field rewrite -/

mutual

theorem rewriteJson_idem_aux (S : List String) (path : String) :
    ∀ j : Json, rewriteJson S path (rewriteJson S path j) = rewriteJson S path j
  | .null => rfl
  | .bool _ => rfl
  | .num _ => rfl
  | .str _ => rfl
  | .arr xs => by
      by_cases h : shouldEncodeAsBase64 S path = true
      · by_cases hb : isNumHead xs = true
        · have h1 : rewriteJson S path (.arr xs) =
              .arr (.cons (.str (b64String xs)) .nil) := by
            simp [rewriteJson, h, hb]
          rw [h1]
          simp [rewriteJson, h, isNumHead]
        · simp [rewriteJson, h, hb]
      · simp only [Bool.not_eq_true] at h
        simp [rewriteJson, h, rewriteList_idem_aux S path 0 xs]
  | .obj fs => by simp [rewriteJson, rewriteObj_idem_aux S path fs]

theorem rewriteList_idem_aux (S : List String) (path : String) (i : Nat) :
    ∀ xs : JsonList, rewriteList S path i (rewriteList S path i xs) = rewriteList S path i xs
  | .nil => rfl
  | .cons x xs => by
      simp [rewriteList, rewriteJson_idem_aux S (pathIndex path i) x,
        rewriteList_idem_aux S path (i + 1) xs]

theorem rewriteObj_idem_aux (S : List String) (path : String) :
    ∀ fs : JsonObj, rewriteObj S path (rewriteObj S path fs) = rewriteObj S path fs
  | .onil => rfl
  | .ocons k v fs => by
      by_cases h : shouldEncodeAsBase64 S (joinPath path k) = true
      · cases v with
        | arr xs =>
            by_cases hb : isNumHead xs = true
            · simp [rewriteObj, h, hb, rewriteObj_idem_aux S path fs]
            · simp [rewriteObj, h, hb, rewriteObj_idem_aux S path fs]
        | null => simp [rewriteObj, h, rewriteObj_idem_aux S path fs]
        | bool b => simp [rewriteObj, h, rewriteObj_idem_aux S path fs]
        | num n => simp [rewriteObj, h, rewriteObj_idem_aux S path fs]
        | str s => simp [rewriteObj, h, rewriteObj_idem_aux S path fs]
        | obj gs => simp [rewriteObj, h, rewriteObj_idem_aux S path fs]
      · simp only [Bool.not_eq_true] at h
        simp [rewriteObj, h, rewriteObj_idem_aux S path fs,
          rewriteJson_idem_aux S (joinPath path k) v]

end

/-- C4: the binary-field rewrite is idempotent — applying the post-processing
rewrite twice to any decoded tree, under any classifier and starting path,
yields the same tree as applying it once (a rewritten field holds a string,
and a string is not an array of numbers, so the second pass leaves it). -/
theorem encodeBinaryFields_idempotent (S : List String) (path : String) (j : Json) :
    rewriteJson S path (rewriteJson S path j) = rewriteJson S path j :=
  rewriteJson_idem_aux S path j

/-! ## C5 -/

/-- C5: a field whose path matches the classifier but whose value is an empty
array or not an array headed by a number is left completely unchanged by the
rewrite — both for an array node reached at a matched path and for an object
property with a matched path. -/
theorem classified_wrong_shape_untouched :
    (∀ (S : List String) (path : String) (xs : JsonList),
        shouldEncodeAsBase64 S path = true → isNumHead xs = false →
        rewriteJson S path (.arr xs) = .arr xs) ∧
    (∀ (S : List String) (path k : String) (v : Json) (fs : JsonObj),
        shouldEncodeAsBase64 S (joinPath path k) = true →
        (∀ ys : JsonList, v = .arr ys → isNumHead ys = false) →
        rewriteObj S path (.ocons k v fs) = .ocons k v (rewriteObj S path fs)) := by
  constructor
  · intro S path xs h1 h2
    simp [rewriteJson, h1, h2]
  · intro S path k v fs h1 h2
    cases v with
    | arr ys => simp [rewriteObj, h1, h2 ys rfl]
    | null => simp [rewriteObj, h1]
    | bool b => simp [rewriteObj, h1]
    | num n => simp [rewriteObj, h1]
    | str s => simp [rewriteObj, h1]
    | obj gs => simp [rewriteObj, h1]

/-- Witness for C5: under the classifier holding `data`, the empty array at
the matched path `data` and a matched object property holding a string are
untouched. -/
theorem classified_wrong_shape_untouched_witness :
    shouldEncodeAsBase64 ["data"] "data" = true ∧
    isNumHead .nil = false ∧
    rewriteJson ["data"] "data" (.arr .nil) = .arr .nil ∧
    rewriteObj ["data"] "" (.ocons "data" (.str "hi") .onil) =
      .ocons "data" (.str "hi") (rewriteObj ["data"] "" .onil) :=
  ⟨by decide, rfl,
    classified_wrong_shape_untouched.1 ["data"] "data" .nil (by decide) rfl,
    classified_wrong_shape_untouched.2 ["data"] "" "data" (.str "hi") .onil
      (by decide) (fun ys h => Json.noConfusion h)⟩

/-! ## C10: the rewrite changes nothing outside matched byte arrays -/

mutual

theorem rewriteJson_of_no_match (S : List String) (path : String) :
    ∀ j : Json, cmJson S path j = false → rewriteJson S path j = j
  | .null, _ => rfl
  | .bool _, _ => rfl
  | .num _, _ => rfl
  | .str _, _ => rfl
  | .arr xs, h => by
      simp only [cmJson, Bool.or_eq_false_iff] at h
      obtain ⟨h1, h2⟩ := h
      by_cases hs : shouldEncodeAsBase64 S path = true
      · have hb : isNumHead xs = false := by
          rw [hs] at h1
          simpa using h1
        simp [rewriteJson, hs, hb]
      · simp only [Bool.not_eq_true] at hs
        simp [rewriteJson, hs, rewriteList_of_no_match S path 0 xs h2]
  | .obj fs, h => by
      simp only [cmJson] at h
      simp [rewriteJson, rewriteObj_of_no_match S path fs h]

theorem rewriteList_of_no_match (S : List String) (path : String) (i : Nat) :
    ∀ xs : JsonList, cmList S path i xs = false → rewriteList S path i xs = xs
  | .nil, _ => rfl
  | .cons x xs, h => by
      simp only [cmList, Bool.or_eq_false_iff] at h
      obtain ⟨h1, h2⟩ := h
      simp [rewriteList, rewriteJson_of_no_match S (pathIndex path i) x h1,
        rewriteList_of_no_match S path (i + 1) xs h2]

theorem rewriteObj_of_no_match (S : List String) (path : String) :
    ∀ fs : JsonObj, cmObj S path fs = false → rewriteObj S path fs = fs
  | .onil, _ => rfl
  | .ocons k v fs, h => by
      simp only [cmObj, Bool.or_eq_false_iff] at h
      obtain ⟨h1, h2⟩ := h
      by_cases hs : shouldEncodeAsBase64 S (joinPath path k) = true
      · cases v with
        | arr ys =>
            have hb : isNumHead ys = false := by
              simp only [cmJson, Bool.or_eq_false_iff, hs] at h1
              simpa using h1.1
            simp [rewriteObj, hs, hb, rewriteObj_of_no_match S path fs h2]
        | null => simp [rewriteObj, hs, rewriteObj_of_no_match S path fs h2]
        | bool b => simp [rewriteObj, hs, rewriteObj_of_no_match S path fs h2]
        | num n => simp [rewriteObj, hs, rewriteObj_of_no_match S path fs h2]
        | str s => simp [rewriteObj, hs, rewriteObj_of_no_match S path fs h2]
        | obj gs => simp [rewriteObj, hs, rewriteObj_of_no_match S path fs h2]
      · simp only [Bool.not_eq_true] at hs
        simp [rewriteObj, hs, rewriteJson_of_no_match S (joinPath path k) v h1,
          rewriteObj_of_no_match S path fs h2]

end

theorem listGet_rewriteList (S : List String) (path : String) :
    ∀ (xs : JsonList) (n i : Nat),
      listGet (rewriteList S path n xs) i =
        (listGet xs i).map (fun x => rewriteJson S (pathIndex path (n + i)) x)
  | .nil, n, i => by simp [rewriteList, listGet]
  | .cons x xs, n, 0 => by simp [rewriteList, listGet]
  | .cons x xs, n, i + 1 => by
      simp only [rewriteList, listGet]
      rw [listGet_rewriteList S path xs (n + 1) i,
        show n + 1 + i = n + (i + 1) from by omega]

theorem rewriteObj_ocons (S : List String) (path k : String) (v : Json) (fs : JsonObj) :
    rewriteObj S path (.ocons k v fs) = .ocons k (entryVal S path k v) (rewriteObj S path fs) := by
  simp [rewriteObj, entryVal]

theorem objGet_rewriteObj (S : List String) (path : String) :
    ∀ (fs : JsonObj) (k : String),
      objGet (rewriteObj S path fs) k = (objGet fs k).map (entryVal S path k)
  | .onil, k => by simp [rewriteObj, objGet]
  | .ocons q v fs, k => by
      rw [rewriteObj_ocons]
      by_cases hq : q = k
      · subst hq
        simp [objGet]
      · simp [objGet, hq, objGet_rewriteObj S path fs k]

theorem cleanChain_not_matched (S : List String) (p : String) (v : Json)
    (σ : List Seg) (h : cleanChain S p v σ = true) :
    isMatchedByteArr S p v = false := by
  cases σ with
  | nil =>
      simp only [cleanChain, Bool.not_eq_eq_eq_not, Bool.not_true] at h
      cases v with
      | arr xs =>
          simp only [cmJson, Bool.or_eq_false_iff] at h
          simpa [isMatchedByteArr] using h.1
      | null => rfl
      | bool b => rfl
      | num n => rfl
      | str s => rfl
      | obj fs => rfl
  | cons s σ2 =>
      cases s with
      | idx i =>
          simp only [cleanChain, Bool.and_eq_true, Bool.not_eq_true'] at h
          exact h.1
      | key k =>
          simp only [cleanChain, Bool.and_eq_true, Bool.not_eq_true'] at h
          exact h.1

theorem rewriteJson_arr_shape (S : List String) (path : String) (xs : JsonList) :
    ∃ ys, rewriteJson S path (.arr xs) = .arr ys := by
  by_cases hs : shouldEncodeAsBase64 S path = true
  · by_cases hb : isNumHead xs = true
    · exact ⟨.cons (.str (b64String xs)) .nil, by simp [rewriteJson, hs, hb]⟩
    · exact ⟨xs, by simp [rewriteJson, hs, hb]⟩
  · simp only [Bool.not_eq_true] at hs
    exact ⟨rewriteList S path 0 xs, by simp [rewriteJson, hs]⟩

/-- C10: the post-processing rewrite mutates only fields whose qualified path
matches the classifier and whose value is a nonempty number-headed array.
Every position whose chain of nodes avoids such fields, and whose subtree
contains none, reads the same subtree before and after the rewrite: every
other node is present and unchanged. -/
theorem rewrite_touches_only_matched (S : List String) (path : String) (j : Json)
    (σ : List Seg) (h : cleanChain S path j σ = true) :
    getAt (rewriteJson S path j) σ = getAt j σ := by
  induction σ generalizing path j with
  | nil =>
      have hcm : cmJson S path j = false := by
        simpa [cleanChain] using h
      rw [rewriteJson_of_no_match S path j hcm]
  | cons s σ2 ih =>
      have hm : isMatchedByteArr S path j = false := cleanChain_not_matched S path j _ h
      cases s with
      | idx i =>
          cases j with
          | null => simp [rewriteJson]
          | bool b => simp [rewriteJson]
          | num n => simp [rewriteJson]
          | str t => simp [rewriteJson]
          | obj fs => simp [rewriteJson, getAt]
          | arr xs =>
              by_cases hs : shouldEncodeAsBase64 S path = true
              · have hb : isNumHead xs = false := by
                  simpa [isMatchedByteArr, hs] using hm
                rw [show rewriteJson S path (.arr xs) = .arr xs from by
                  simp [rewriteJson, hs, hb]]
              · simp only [Bool.not_eq_true] at hs
                rw [show rewriteJson S path (.arr xs) = .arr (rewriteList S path 0 xs) from by
                  simp [rewriteJson, hs]]
                simp only [getAt]
                rw [listGet_rewriteList S path xs 0 i]
                cases hg : listGet xs i with
                | none => simp
                | some x =>
                    have h2 : cleanChain S (pathIndex path i) x σ2 = true := by
                      have hh := h
                      simp only [cleanChain, Bool.and_eq_true] at hh
                      rcases hh with ⟨_, hrest⟩
                      rw [hg] at hrest
                      simpa using hrest
                    simpa [show (0 : Nat) + i = i from by omega] using
                      ih (pathIndex path i) x h2
      | key k =>
          cases j with
          | null => simp [rewriteJson]
          | bool b => simp [rewriteJson]
          | num n => simp [rewriteJson]
          | str t => simp [rewriteJson]
          | arr xs =>
              obtain ⟨ys, hys⟩ := rewriteJson_arr_shape S path xs
              rw [hys]
              simp [getAt]
          | obj fs =>
              rw [show rewriteJson S path (.obj fs) = .obj (rewriteObj S path fs) from by
                simp [rewriteJson]]
              simp only [getAt]
              rw [objGet_rewriteObj S path fs k]
              cases hg : objGet fs k with
              | none => simp
              | some v =>
                  have h2 : cleanChain S (joinPath path k) v σ2 = true := by
                    have hh := h
                    simp only [cleanChain, Bool.and_eq_true] at hh
                    rcases hh with ⟨_, hrest⟩
                    rw [hg] at hrest
                    simpa using hrest
                  have hvm : isMatchedByteArr S (joinPath path k) v = false :=
                    cleanChain_not_matched S _ v σ2 h2
                  by_cases hs : shouldEncodeAsBase64 S (joinPath path k) = true
                  · have hev : entryVal S path k v = v := by
                      cases v with
                      | arr ys =>
                          have hb : isNumHead ys = false := by
                            simpa [isMatchedByteArr, hs] using hvm
                          simp [entryVal, hs, hb]
                      | null => simp [entryVal, hs]
                      | bool b => simp [entryVal, hs]
                      | num n => simp [entryVal, hs]
                      | str t => simp [entryVal, hs]
                      | obj gs => simp [entryVal, hs]
                    simp [hev]
                  · simp only [Bool.not_eq_true] at hs
                    have hev : entryVal S path k v = rewriteJson S (joinPath path k) v := by
                      simp [entryVal, hs]
                    simpa [hev] using ih (joinPath path k) v h2

/-- Witness for C10: in a tree holding a non-matching scalar next to a
matched byte array, the scalar's position reads the same value after the
rewrite. -/
theorem rewrite_touches_only_matched_witness :
    cleanChain ["data"] ""
      (.obj (.ocons "a" (.num 5)
        (.ocons "data" (.arr (.cons (.num 1) .nil)) .onil))) (.key "a" :: []) = true ∧
    getAt (rewriteJson ["data"] ""
        (.obj (.ocons "a" (.num 5)
          (.ocons "data" (.arr (.cons (.num 1) .nil)) .onil)))) (.key "a" :: []) =
      getAt (.obj (.ocons "a" (.num 5)
        (.ocons "data" (.arr (.cons (.num 1) .nil)) .onil))) (.key "a" :: []) :=
  ⟨by decide, rewrite_touches_only_matched ["data"] "" _ _ (by decide)⟩

/-! ## C6: decoder failure produces one error carrying exit code and stderr -/

theorem strContains_appendL (x m n : String) (h : strContains m n) :
    strContains (x ++ m) n := by
  obtain ⟨a, b, hab⟩ := h
  exact ⟨x ++ a, b, by rw [hab]; simp [String.append_assoc]⟩

theorem strContains_appendR (m y n : String) (h : strContains m n) :
    strContains (m ++ y) n := by
  obtain ⟨a, b, hab⟩ := h
  exact ⟨a, b ++ y, by rw [hab]; simp [String.append_assoc]⟩

theorem strContains_tail (x n : String) : strContains (x ++ n) n :=
  ⟨x, "", by simp⟩

/-- C6: when the decoder invocation fails with an exit code and nonempty
stderr content, the conversion pipeline rejects with a single error whose
message contains the literal exit code and the literal stderr content, and no
structured-data result is returned. -/
theorem decoder_failure_error_content (cfg : Option String) (fs : FileSys)
    (ducSchema : String) (decoded : Json) (e : ExecError) (s : String) (c : Int)
    (hstderr : e.stderr = some s) (htrim : trimJS s = s) (hne : s ≠ "")
    (hcode : e.code = some c) (_hnz : c ≠ 0) :
    ∃ m, convertDucToJson cfg fs ducSchema (some e) decoded = Except.error m ∧
      strContains m (toString c) ∧ strContains m s := by
  refine ⟨buildDetailedMessage e, rfl, ?_, ?_⟩
  · simp only [buildDetailedMessage, hstderr, hcode, htrim]
    rw [if_neg hne]
    apply strContains_appendR
    apply strContains_appendL
    exact strContains_tail _ _
  · simp only [buildDetailedMessage, hstderr, hcode, htrim]
    rw [if_neg hne]
    apply strContains_appendR
    apply strContains_appendR
    apply strContains_appendR
    apply strContains_appendL
    exact strContains_tail _ _

/-- Witness for C6 at exit code 1 and stderr `schema mismatch`. -/
theorem decoder_failure_error_content_witness :
    trimJS "schema mismatch" = "schema mismatch" ∧
    "schema mismatch" ≠ "" ∧
    (1 : Int) ≠ 0 ∧
    ∃ m, convertDucToJson none ⟨fun _ => false, fun _ => false, fun _ => none⟩ ""
        (some ⟨"Command failed", some "schema mismatch", some "", some 1, none⟩) .null
        = Except.error m ∧
      strContains m (toString (1 : Int)) ∧ strContains m "schema mismatch" :=
  ⟨by decide, by decide, by decide,
    decoder_failure_error_content none ⟨fun _ => false, fun _ => false, fun _ => none⟩ ""
      .null ⟨"Command failed", some "schema mismatch", some "", some 1, none⟩
      "schema mismatch" 1 rfl (by decide) (by decide) rfl (by decide)⟩

/-! ## C7 -/

/-- C7: when the persisted override path does not exist on disk, the resolver
reports no custom schema path and the effective schema text used by the
conversion is the compiled-in default text, unchanged. -/
theorem missing_override_falls_back_to_default (p : String) (fs : FileSys)
    (ducSchema : String) (hex : fs.fexists p = false) :
    getCustomSchemaPath (some p) fs = none ∧
    effectiveSchemaText (some p) fs ducSchema = ducSchema := by
  have hv : isValidSchemaFile fs p = false := by
    simp [isValidSchemaFile, hex]
  refine ⟨?_, ?_⟩
  · simp [getCustomSchemaPath, hv]
  · simp [effectiveSchemaText, getCustomSchemaContent, getCustomSchemaPath, hv]

/-- Witness for C7 at a nonexistent override path. -/
theorem missing_override_falls_back_to_default_witness :
    (⟨fun _ => false, fun _ => false, fun _ => none⟩ : FileSys).fexists "/missing.fbs" = false ∧
    getCustomSchemaPath (some "/missing.fbs")
      ⟨fun _ => false, fun _ => false, fun _ => none⟩ = none ∧
    effectiveSchemaText (some "/missing.fbs")
      ⟨fun _ => false, fun _ => false, fun _ => none⟩ "table Duc" = "table Duc" :=
  ⟨rfl,
    (missing_override_falls_back_to_default "/missing.fbs" _ "table Duc" rfl).1,
    (missing_override_falls_back_to_default "/missing.fbs" _ "table Duc" rfl).2⟩

/-! ## C8 -/

/-- C8 counterexample: a persisted path that does not exist is treated as
unset (the resolver returns null), yet detecting that invalidity does not
clear the persisted setting — it survives unchanged, refuting the claim that
any detected invalidity clears the setting. -/
theorem invalid_path_not_cleared_counterexample :
    getCustomSchemaPath (some "/missing.fbs")
        ⟨fun _ => false, fun _ => false, fun _ => none⟩ = none ∧
    (getCustomSchemaContent (some "/missing.fbs")
        ⟨fun _ => false, fun _ => false, fun _ => none⟩).2 = some "/missing.fbs" := by
  exact ⟨rfl, rfl⟩

/-- C8 (amended): an invalid stored path (nonexistent, wrong extension, or
failing the readability probe) is treated as unset but the persisted setting
is left unchanged; the setting is cleared exactly when the stored path passes
validation and the subsequent content read fails. -/
theorem invalid_path_unset_cleared_only_on_read_failure
    (cfg : Option String) (fs : FileSys) :
    (getCustomSchemaPath cfg fs = none →
      getCustomSchemaContent cfg fs = (none, cfg)) ∧
    (∀ p, getCustomSchemaPath cfg fs = some p → fs.readFile p = none →
      getCustomSchemaContent cfg fs = (none, none)) := by
  refine ⟨?_, ?_⟩
  · intro h
    simp [getCustomSchemaContent, h]
  · intro p hp hr
    simp [getCustomSchemaContent, hp, hr]

/-- Witness for the amended C8: an invalid path leaves the setting untouched,
and a valid path whose read fails clears it. -/
theorem invalid_path_unset_cleared_only_on_read_failure_witness :
    (getCustomSchemaPath (some "/missing.fbs")
        ⟨fun _ => false, fun _ => false, fun _ => none⟩ = none ∧
      getCustomSchemaContent (some "/missing.fbs")
        ⟨fun _ => false, fun _ => false, fun _ => none⟩ = (none, some "/missing.fbs")) ∧
    (getCustomSchemaPath (some "/s.fbs")
        ⟨fun _ => true, fun _ => true, fun _ => none⟩ = some "/s.fbs" ∧
      getCustomSchemaContent (some "/s.fbs")
        ⟨fun _ => true, fun _ => true, fun _ => none⟩ = (none, none)) :=
  ⟨⟨by decide,
    (invalid_path_unset_cleared_only_on_read_failure (some "/missing.fbs") _).1 (by decide)⟩,
   ⟨by decide,
    (invalid_path_unset_cleared_only_on_read_failure (some "/s.fbs") _).2 "/s.fbs"
      (by decide) rfl⟩⟩

/-! ## C9 -/

/-- C9: while the downloading flag is set a second download request is
rejected immediately with the distinct already-downloading error; settling
the in-flight download clears the flag, after which a new request is
accepted rather than rejected. -/
theorem concurrent_download_guard (st : FlatcState) (o : Except String String) :
    (st.isDownloading = true →
      downloadStart st = .error "Already downloading flatc, please wait.") ∧
    (downloadSettle st o).2.isDownloading = false ∧
    downloadStart (downloadSettle st o).2 =
      .ok { (downloadSettle st o).2 with isDownloading := true } := by
  refine ⟨?_, ?_, ?_⟩
  · intro h
    simp [downloadStart, h]
  · cases o <;> simp [downloadSettle]
  · cases o <;> simp [downloadStart, downloadSettle]

/-- Witness for C9 with an in-flight download and a failing outcome. -/
theorem concurrent_download_guard_witness :
    ({ flatcPath := none, isDownloading := true } : FlatcState).isDownloading = true ∧
    downloadStart { flatcPath := none, isDownloading := true } =
      .error "Already downloading flatc, please wait." ∧
    (downloadSettle { flatcPath := none, isDownloading := true }
      (.error "network failure")).2.isDownloading = false :=
  ⟨rfl,
    (concurrent_download_guard { flatcPath := none, isDownloading := true }
      (.error "network failure")).1 rfl,
    (concurrent_download_guard { flatcPath := none, isDownloading := true }
      (.error "network failure")).2.1⟩
